import Mathlib

/-
  Verification of the TuringFormation template engine (src/lambda_handler.py)
  against its natural-language specification.

  The document model, the tree walker `process_fragment`, the two built-in
  functions `splice` and `for_each`, and the interpolation helper
  `json_string_sub` are embedded shallowly below.  Python dicts are modelled
  as insertion-ordered association lists with string keys, Python lists as
  Lean lists, scalars as string / integer / boolean / null constructors
  (numeric scalars are modelled as integers; the claims under study never
  exercise floats).  In-place mutation is modelled by explicit state passing:
  each modelled operation returns the updated container, and a raised Python
  exception is modelled as `Except.error`.
-/

/-- JSON-like document values: ordered mappings, sequences and scalars,
mirroring the `dict` / `list` / scalar shapes `process_fragment` tests with
`isinstance`. -/
inductive JValue where
  | vstr : String → JValue
  | vint : Int → JValue
  | vbool : Bool → JValue
  | vnull : JValue
  | vseq : List JValue → JValue
  | vmap : List (String × JValue) → JValue

/-- Error kinds raised by the engine.  Each constructor corresponds to one
`raise` site in src/lambda_handler.py (the Python exception class and message
are recorded in the comment).  `outOfFuel` is a model artifact of the fuel
parameter used for the recursive walker and never occurs on runs given
enough fuel. -/
inductive Err where
  /-- RecursionError "Maximum recursion on mapping node", line 65. -/
  | convergenceErr : Err
  /-- ValueError "Function call %s must be the only element in mapping", line 73. -/
  | malformedCall : String → Err
  /-- ValueError "Unknown function %s", line 79. -/
  | unknownFunction : String → Err
  /-- TypeError at line 104: splice whose containing value is not a list.
  (The source's format expression on lines 105-106 is itself buggy -- the
  `%` binds only to the first string -- but a TypeError is raised from this
  site either way.) -/
  | spliceBadParent : Err
  /-- TypeError at line 99: splice of a non-list argument into a list. -/
  | spliceNonSeqArg : Err
  /-- TypeError for a malformed Turing::ForEach argument (lines 123-124,
  136-137, 139-140, 147-148). -/
  | argShapeType : Err
  /-- ValueError for a Turing::ForEach argument of the wrong element count
  (lines 125-126, 141-142). -/
  | argShapeValue : Err
  /-- TypeError from `parent[key] = ...` when the handler was dispatched at
  the document root, where `parent` is None (lines 156 and 197). -/
  | noneAssignment : Err
  /-- KeyError from `fragment[fragment_key]` (line 57); unreachable with the
  built-in functions, which never delete keys. -/
  | keyMissing : Err
  /-- Model artifact: recursion fuel exhausted. -/
  | outOfFuel : Err
deriving DecidableEq

/-- The two built-in handlers registered in the `functions` table. -/
inductive Builtin where
  | bSplice : Builtin
  | bForEach : Builtin
deriving DecidableEq

/-- Outcome of resolving one value: either a fully resolved value, or a
function-call node (single reserved-key mapping) whose dispatch is performed
by the caller holding the parent slot, mirroring how `process_fragment`
passes `parent` and `parent_key` to the handler (lines 77-81). -/
inductive StepResult where
  | value : JValue → StepResult
  | call : Builtin → JValue → StepResult

/-- Association-list lookup (first matching key), modelling Python dict
lookup; the modelled dicts keep keys unique. -/
def lookupA {α : Type} : List (String × α) → String → Option α
  | [], _ => none
  | (k', v) :: rest, k => if k' = k then some v else lookupA rest k

/-- Association-list update, modelling `d[k] = v` on a Python dict: replaces
the value at an existing key in place, otherwise appends the new entry,
preserving insertion order. -/
def asetP {α : Type} : List (String × α) → String → α → List (String × α)
  | [], k, v => [(k, v)]
  | (k', v') :: rest, k, v =>
      if k' = k then (k, v) :: rest else (k', v') :: asetP rest k v

/-- Left brace character (written by code point to keep it out of string and
character literal positions). -/
def lbrace : Char := Char.ofNat 123

/-- Right brace character. -/
def rbrace : Char := Char.ofNat 125

/-- First character of a `string.Template` identifier: `[_a-zA-Z]`
(the default `Template` pattern's `[_a-z]` under re.IGNORECASE). -/
def isIdentStart (c : Char) : Bool :=
  c = '_' || (('a' ≤ c && c ≤ 'z') || ('A' ≤ c && c ≤ 'Z'))

/-- Continuation character of a `string.Template` identifier: `[_a-zA-Z0-9]`. -/
def isIdentCont (c : Char) : Bool :=
  isIdentStart c || ('0' ≤ c && c ≤ '9')

/-- Scanner for Python's `string.Template(body).safe_substitute(mapping)`
(line 218 of the source), over the character list of the string.  At each
`$` the alternatives of the default Template pattern are tried in order:
`$$` yields a literal `$`; `${name}` and `$name` (maximal-munch identifier)
are replaced by the binding's value when the name is bound and are kept
verbatim otherwise; an invalid `$` (no alternative matches) is kept verbatim
and scanning resumes right after it, exactly as `safe_substitute` does.
The fuel argument is a model artifact: every step consumes at least one
character, so fuel `length + 1` never runs out. -/
def safeSubGo (m : List (String × String)) : Nat → List Char → List Char
  | 0, cs => cs
  | _ + 1, [] => []
  | fuel + 1, c :: cs =>
    if c = '$' then
      match cs with
      | [] => ['$']
      | d :: ds =>
        if d = '$' then '$' :: safeSubGo m fuel ds
        else if d = lbrace then
          match ds with
          | [] => '$' :: safeSubGo m fuel cs
          | e :: es =>
            if isIdentStart e then
              let ident := e :: es.takeWhile isIdentCont
              match es.dropWhile isIdentCont with
              | [] => '$' :: safeSubGo m fuel cs
              | r :: rs =>
                if r = rbrace then
                  match lookupA m (String.mk ident) with
                  | some v => v.data ++ safeSubGo m fuel rs
                  | none => '$' :: lbrace :: (ident ++ rbrace :: safeSubGo m fuel rs)
                else '$' :: safeSubGo m fuel cs
            else '$' :: safeSubGo m fuel cs
        else if isIdentStart d then
          let ident := d :: ds.takeWhile isIdentCont
          let rest := ds.dropWhile isIdentCont
          match lookupA m (String.mk ident) with
          | some v => v.data ++ safeSubGo m fuel rest
          | none => '$' :: (ident ++ safeSubGo m fuel rest)
        else '$' :: safeSubGo m fuel cs
    else c :: safeSubGo m fuel cs

/-- String-level `safe_substitute`. -/
def safeSubStr (s : String) (m : List (String × String)) : String :=
  String.mk (safeSubGo m (s.data.length + 1) s.data)

/-- Replay of a Python dict comprehension's insertions, used to model
`{json_string_sub(key, m): json_string_sub(value, m) for key, value in ...}`
(lines 211-214): entries are inserted in order and a repeated key keeps its
first position with the last value. -/
def dedupEntries : List (String × JValue) → List (String × JValue) :=
  fun l => l.foldl (fun acc kv => asetP acc kv.1 kv.2) []

mutual

/-- `json_string_sub(body, mapping)` (lines 203-220): recursive variable
substitution on every string of a document; mappings rebuild both keys and
values, sequences map elementwise, strings go through `safe_substitute`,
other scalars pass through unchanged. -/
def jsonStringSub (m : List (String × String)) : JValue → JValue
  | JValue.vmap entries => JValue.vmap (dedupEntries (jsonStringSubEntries m entries))
  | JValue.vseq items => JValue.vseq (jsonStringSubItems m items)
  | JValue.vstr s => JValue.vstr (safeSubStr s m)
  | v => v

/-- Elementwise `json_string_sub` over a sequence's items (line 216). -/
def jsonStringSubItems (m : List (String × String)) : List JValue → List JValue
  | [] => []
  | x :: xs => jsonStringSub m x :: jsonStringSubItems m xs

/-- `json_string_sub` over a mapping's entries (lines 211-214), before the
dict comprehension's key dedup is replayed. -/
def jsonStringSubEntries (m : List (String × String)) :
    List (String × JValue) → List (String × JValue)
  | [] => []
  | (k, v) :: rest => (safeSubStr k m, jsonStringSub m v) :: jsonStringSubEntries m rest

end

mutual

/-- Python `str(el)` as applied on line 151 to each iteration value.  Scalars
follow CPython exactly (`str`, decimal integers, `True`/`False`, `None`);
for containers `str` falls back to `repr`, modelled by `pyRepr`.  The claims
under study only exercise scalar iteration values. -/
def pyStr : JValue → String
  | JValue.vstr s => s
  | JValue.vint n => toString n
  | JValue.vbool b => if b then "True" else "False"
  | JValue.vnull => "None"
  | JValue.vseq items => "[" ++ pyReprItems items ++ "]"
  | JValue.vmap entries => "\x7b" ++ pyReprEntries entries ++ "\x7d"

/-- Python `repr` of a value (used by `str` inside containers).  String
escaping inside `repr` is simplified to plain single quotes; no claim
evaluates `str` on a container holding quote characters. -/
def pyRepr : JValue → String
  | JValue.vstr s => "'" ++ s ++ "'"
  | JValue.vint n => toString n
  | JValue.vbool b => if b then "True" else "False"
  | JValue.vnull => "None"
  | JValue.vseq items => "[" ++ pyReprItems items ++ "]"
  | JValue.vmap entries => "\x7b" ++ pyReprEntries entries ++ "\x7d"

/-- Comma-joined `repr`s of a list's items. -/
def pyReprItems : List JValue → String
  | [] => ""
  | [x] => pyRepr x
  | x :: xs => pyRepr x ++ ", " ++ pyReprItems xs

/-- Comma-joined `repr`s of a dict's entries. -/
def pyReprEntries : List (String × JValue) → String
  | [] => ""
  | [(k, v)] => "'" ++ k ++ "': " ++ pyRepr v
  | (k, v) :: rest => "'" ++ k ++ "': " ++ pyRepr v ++ ", " ++ pyReprEntries rest

end

/-- Parsing and validation of `iteration_specs` (lines 136-151): the spec
list and each `[name, valueList]` pair are type- and shape-checked in the
source's order, and each value is coerced with `str`. -/
def parseSpecs : List JValue → Except Err (List (String × List String))
  | [] => Except.ok []
  | JValue.vseq [nv, vv] :: rest =>
      match nv, vv with
      | JValue.vstr n, JValue.vseq vals =>
          (parseSpecs rest).bind fun r => Except.ok ((n, vals.map pyStr) :: r)
      | _, _ => Except.error Err.argShapeType
  | JValue.vseq _ :: _ => Except.error Err.argShapeValue
  | _ :: _ => Except.error Err.argShapeType

/-- Result of one odometer advance (lines 179-195): `stepped` when some
variable moved to its next value (the for-loop's `break`), `rolled` when
every variable ran out and was reset (the for-loop's `else`, which exits the
while-loop). -/
inductive OdoRes where
  | rolled : List Nat → List (String × String) → OdoRes
  | stepped : List Nat → List (String × String) → OdoRes

/-- The odometer advance of `for_each` (lines 179-195): variables are tried
from the innermost (last of `iteration_specs`) outwards; a variable with a
value left is advanced and its binding updated, a variable that ran out is
reset to its first value (updating the binding) and the next one outwards is
tried.  The structural recursion processes the later variables first,
exactly as the Python loop `for i in range(n_variables - 1, -1, -1)` does.
Mismatched index/spec list lengths (unreachable: both lists come from
`iteration_specs`) roll over. -/
def odoStep : List (String × List String) → List Nat → List (String × String) → OdoRes
  | [], _, cur => OdoRes.rolled [] cur
  | _ :: _, [], cur => OdoRes.rolled [] cur
  | (n, vs) :: rest, i :: ix, cur =>
    match odoStep rest ix cur with
    | OdoRes.stepped ix' cur' => OdoRes.stepped (i :: ix') cur'
    | OdoRes.rolled ix' cur' =>
      if i + 1 < vs.length then
        OdoRes.stepped ((i + 1) :: ix') (asetP cur' n (vs.getD (i + 1) ""))
      else
        OdoRes.rolled (0 :: ix') (asetP cur' n (vs.getD 0 ""))

/-- The `while True` loop of `for_each` (lines 175-195): each iteration
appends `json_string_sub(body, current_values)` to the result, then advances
the odometer; the loop exits when the odometer rolls over.  The fuel is a
model artifact: the loop runs exactly (product of the value-list lengths)
iterations, which is the fuel `forEachCompute` supplies. -/
def forEachLoop :
    Nat → JValue → List (String × List String) → List Nat →
    List (String × String) → List JValue
  | 0, _, _, _, _ => []
  | fuel + 1, body, specs, ix, cur =>
    let x := jsonStringSub cur body
    match odoStep specs ix cur with
    | OdoRes.rolled _ _ => [x]
    | OdoRes.stepped ix' cur' => x :: forEachLoop fuel body specs ix' cur'

/-- The initial `current_values` dict of `for_each` (lines 170-173): each
variable bound to its first value, inserted in declaration order. -/
def initCurrent (specs : List (String × List String)) : List (String × String) :=
  specs.foldl (fun acc nv => asetP acc nv.1 (nv.2.headD "")) []

/-- The pure computation of `for_each` (lines 111-195): validate the
argument's shape, coerce the iteration values, return `[]` when any value
list is empty (line 155-157, without touching the body), and otherwise
enumerate the Cartesian product in odometer order.  The resulting list is
what the handler assigns into `parent[key]`; the assignment itself is
performed by the caller holding the parent slot. -/
def forEachCompute (fragment : JValue) : Except Err (List JValue) :=
  match fragment with
  | JValue.vseq [specsV, body] =>
    match specsV with
    | JValue.vseq specVs =>
      (parseSpecs specVs).bind fun specs =>
        if specs.any (fun sv => sv.2.isEmpty) then Except.ok []
        else
          Except.ok (forEachLoop ((specs.map (fun sv => sv.2.length)).prod)
            body specs (specs.map (fun _ => 0)) (initCurrent specs))
    | _ => Except.error Err.argShapeType
  | JValue.vseq _ => Except.error Err.argShapeValue
  | _ => Except.error Err.argShapeType

/-- `parent[key:key+1] = fragment` when `parent` is a list (line 102): the
single element at `key` is replaced by all elements of `fragment` when the
latter is a list, otherwise the TypeError of line 99 is raised. -/
def spliceList (items : List JValue) (key : Nat) (fragment : JValue) :
    Except Err (List JValue) :=
  match fragment with
  | JValue.vseq xs => Except.ok (items.take key ++ xs ++ items.drop (key + 1))
  | _ => Except.error Err.spliceNonSeqArg

/-- `splice(parent, key, fragment)` (lines 90-108), returning the updated
parent: a list parent gets the slice-replacement of `spliceList`; any other
parent raises the TypeError of line 104.  Both raises precede the function's
only mutation, so an error leaves the parent unchanged. -/
def splice (parent : JValue) (key : Nat) (fragment : JValue) : Except Err JValue :=
  match parent with
  | JValue.vseq items => (spliceList items key fragment).map JValue.vseq
  | _ => Except.error Err.spliceBadParent

/-- The parent value observed after a call to `splice`: the updated parent
on success and, since both raise sites precede the slice assignment, the
original parent on failure. -/
def spliceFinalParent (parent : JValue) (key : Nat) (fragment : JValue) : JValue :=
  match splice parent key fragment with
  | Except.ok p' => p'
  | Except.error _ => parent

/-- Whether a value is a sequence (`isinstance(x, list)`). -/
def isSeqB : JValue → Bool
  | JValue.vseq _ => true
  | _ => false

/-- `MAX_RECURSION` (line 6): the cap on resolution passes over one mapping. -/
def MAX_RECURSION : Nat := 16

/-- The reserved-prefix test of line 69: `key.startswith("Turing::")`. -/
def isReservedKey (k : String) : Bool :=
  "Turing::".data.isPrefixOf k.data

/-- The `functions` registry (lines 8, 109, 200-201): `Turing::Splice`, and
`Turing::ForEach` with its case-variant alias `Turing::Foreach`. -/
def lookupFunction (k : String) : Option Builtin :=
  if k = "Turing::Splice" then some Builtin.bSplice
  else if k = "Turing::ForEach" then some Builtin.bForEach
  else if k = "Turing::Foreach" then some Builtin.bForEach
  else none

/-- First reserved-prefixed entry of a mapping, in insertion order: the
first entry at which the loop of lines 68-69 acts. -/
def findReserved : List (String × JValue) → Option (String × JValue)
  | [] => none
  | (k, v) :: rest => if isReservedKey k then some (k, v) else findReserved rest

/-- The function-call inspection of lines 67-81, run after a mapping's
children have converged: at the first reserved-prefixed key, a mapping with
more than one entry raises the malformed-call ValueError of line 73, an
unregistered name raises the unknown-function ValueError of line 79, and
otherwise the call is handed to the caller for dispatch against the parent
slot; with no reserved key the mapping is a plain resolved value. -/
def callCheck (entries : List (String × JValue)) : Except Err StepResult :=
  match findReserved entries with
  | none => Except.ok (StepResult.value (JValue.vmap entries))
  | some (k, v) =>
    if entries.length ≠ 1 then Except.error (Err.malformedCall k)
    else
      match lookupFunction k with
      | none => Except.error (Err.unknownFunction k)
      | some b => Except.ok (StepResult.call b v)

mutual

/-- `process_fragment(parent, key, fragment)` (lines 32-88), with the parent
slot factored out: resolving a mapping runs the bounded fixed-point pass
loop over its children (lines 43-65) and then the call inspection of
`callCheck`; resolving a sequence walks its elements by live index from 0
(lines 82-85); scalars are untouched (line 87).  A `StepResult.call` is the
caller's instruction to run the named handler against its own slot, exactly
as line 81 invokes `function(parent, key=parent_key, fragment=value)`.
The fuel argument is a model artifact; it decreases at every call. -/
def resolveFragment : Nat → JValue → Except Err StepResult
  | 0, _ => Except.error Err.outOfFuel
  | fuel + 1, JValue.vmap entries =>
      (mapConverge fuel MAX_RECURSION entries []).bind fun es =>
        callCheck es.1
  | fuel + 1, JValue.vseq items =>
      (resolveListFrom fuel items 0).bind fun items' =>
        Except.ok (StepResult.value (JValue.vseq items'))
  | _ + 1, v => Except.ok (StepResult.value v)

/-- The bounded fixed-point loop over a mapping's keys (lines 45-65):
`passes` counts the remaining iterations of `for i in range(MAX_RECURSION)`.
Each pass snapshots the current keys and visits the not-yet-seen ones; a
pass that saw no new key breaks out; when all passes are spent, a key of the
current mapping still unvisited raises the RecursionError of line 65. -/
def mapConverge :
    Nat → Nat → List (String × JValue) → List String →
    Except Err (List (String × JValue) × List String)
  | 0, _, _, _ => Except.error Err.outOfFuel
  | _ + 1, 0, entries, seen =>
      if (entries.map Prod.fst).any (fun k => !seen.contains k) then
        Except.error Err.convergenceErr
      else Except.ok (entries, seen)
  | fuel + 1, passes + 1, entries, seen =>
      (mapPassKeys fuel (entries.map Prod.fst) entries seen false).bind
        fun r =>
          if r.2.2 then mapConverge fuel passes r.1 r.2.1
          else Except.ok (r.1, r.2.1)

/-- One pass over a snapshot of a mapping's keys (lines 51-57): a key
already seen is skipped; an unseen key sets the new-key flag, is added to
the seen set, and its child value is resolved (possibly rewriting the
mapping through the handler dispatch of `mapStep`). -/
def mapPassKeys :
    Nat → List String → List (String × JValue) → List String → Bool →
    Except Err (List (String × JValue) × List String × Bool)
  | 0, _, _, _, _ => Except.error Err.outOfFuel
  | _ + 1, [], entries, seen, flag => Except.ok (entries, seen, flag)
  | fuel + 1, k :: ks, entries, seen, flag =>
      if seen.contains k then mapPassKeys fuel ks entries seen flag
      else
        (mapStep fuel entries k).bind fun entries' =>
          mapPassKeys fuel ks entries' (k :: seen) true

/-- Resolution of one child of a mapping (lines 55-57 together with the
dispatch the child performs against this mapping as its parent): the child
value is resolved; a plain value leaves the entry's (in-place mutated)
value; a `Turing::Splice` call raises the line-104 TypeError because the
parent is a mapping, not a list; a `Turing::ForEach` call assigns its
computed sequence into this key of the mapping (line 197). -/
def mapStep :
    Nat → List (String × JValue) → String → Except Err (List (String × JValue))
  | 0, _, _ => Except.error Err.outOfFuel
  | fuel + 1, entries, k =>
      match lookupA entries k with
      | none => Except.error Err.keyMissing
      | some v =>
        (resolveFragment fuel v).bind fun r =>
          match r with
          | StepResult.value v' => Except.ok (asetP entries k v')
          | StepResult.call Builtin.bSplice _ => Except.error Err.spliceBadParent
          | StepResult.call Builtin.bForEach arg =>
              (forEachCompute arg).bind fun res =>
                Except.ok (asetP entries k (JValue.vseq res))

/-- The element walk of a sequence (lines 82-85): Python's list iterator
keeps an index cursor against the live list, so after the element at index
`i` is processed -- possibly splicing the list (line 102) or overwriting
position `i` (line 197) -- the walk continues at index `i + 1` of the
updated list and stops as soon as the index reaches the current length. -/
def resolveListFrom : Nat → List JValue → Nat → Except Err (List JValue)
  | 0, _, _ => Except.error Err.outOfFuel
  | fuel + 1, items, i =>
      match items[i]? with
      | none => Except.ok items
      | some x =>
        (resolveFragment fuel x).bind fun r =>
          match r with
          | StepResult.value v' => resolveListFrom fuel (items.set i v') (i + 1)
          | StepResult.call Builtin.bSplice arg =>
              (spliceList items i arg).bind fun items' =>
                resolveListFrom fuel items' (i + 1)
          | StepResult.call Builtin.bForEach arg =>
              (forEachCompute arg).bind fun res =>
                resolveListFrom fuel (items.set i (JValue.vseq res)) (i + 1)

end

/-- Resolution of a whole document, as `handler` invokes it on line 20:
`process_fragment(parent=None, key=None, fragment=document)`.  When the
root itself turns out to be a function-call node, the handler is dispatched
with `parent = None`: `splice` raises the line-104 TypeError since None is
not a list, and `for_each` finishes its computation and then raises a
TypeError at `parent[key] = ...` (line 156 or 197) since None supports no
item assignment. -/
def processDocument (fuel : Nat) (v : JValue) : Except Err JValue :=
  match resolveFragment fuel v with
  | Except.error e => Except.error e
  | Except.ok (StepResult.value v') => Except.ok v'
  | Except.ok (StepResult.call Builtin.bSplice _) => Except.error Err.spliceBadParent
  | Except.ok (StepResult.call Builtin.bForEach arg) =>
      match forEachCompute arg with
      | Except.ok _ => Except.error Err.noneAssignment
      | Except.error e => Except.error e

/-- The pass loop of lines 51-57 with the child-resolution step abstracted
as a fallible function of the current mapping and the key, so that the loop
logic of the walker can be analysed for an arbitrary (possibly
sibling-adding) child step, as the spec's contract permits. -/
def runPassG (step : List (String × JValue) → String → Except Err (List (String × JValue))) :
    List String → List (String × JValue) → List String → Bool →
    Except Err (List (String × JValue) × List String × Bool)
  | [], entries, seen, flag => Except.ok (entries, seen, flag)
  | k :: ks, entries, seen, flag =>
      if seen.contains k then runPassG step ks entries seen flag
      else
        (step entries k).bind fun entries' =>
          runPassG step ks entries' (k :: seen) true

/-- The bounded fixed-point loop of lines 45-65 with the child step
abstracted: run up to `passes` passes, breaking at the first pass that saw
no new key; when the passes are spent, raise the RecursionError of line 65
exactly when the current mapping still has an unvisited key. -/
def convergeG (step : List (String × JValue) → String → Except Err (List (String × JValue))) :
    Nat → List (String × JValue) → List String →
    Except Err (List (String × JValue) × List String)
  | 0, entries, seen =>
      if (entries.map Prod.fst).any (fun k => !seen.contains k) then
        Except.error Err.convergenceErr
      else Except.ok (entries, seen)
  | passes + 1, entries, seen =>
      (runPassG step (entries.map Prod.fst) entries seen false).bind
        fun r =>
          if r.2.2 then convergeG step passes r.1 r.2.1
          else Except.ok (r.1, r.2.1)

/-- An infallible child step lifted into the loop's `Except`. -/
def liftStep (stepF : List (String × JValue) → String → List (String × JValue)) :
    List (String × JValue) → String → Except Err (List (String × JValue)) :=
  fun e k => Except.ok (stepF e k)

/-- Pure mirror of one pass over a key snapshot for an infallible step. -/
def purePassAux (stepF : List (String × JValue) → String → List (String × JValue)) :
    List String → List (String × JValue) → List String →
    List (String × JValue) × List String
  | [], entries, seen => (entries, seen)
  | k :: ks, entries, seen =>
      if seen.contains k then purePassAux stepF ks entries seen
      else purePassAux stepF ks (stepF entries k) (k :: seen)

/-- Pure mirror of one full pass: snapshot the current keys, then visit the
unseen ones. -/
def purePass (stepF : List (String × JValue) → String → List (String × JValue)) :
    List (String × JValue) × List String → List (String × JValue) × List String :=
  fun st => purePassAux stepF (st.1.map Prod.fst) st.1 st.2

/-- The keys of the mapping not yet visited, `fragment.keys() - fragment_keys_seen`
of line 64. -/
def leftoverKeys (st : List (String × JValue) × List String) : List String :=
  (st.1.map Prod.fst).filter (fun k => !st.2.contains k)

/-- Spec-side scanner, modelled on the words of spec section 4.5: scan the
string left to right; substitute every placeholder of the form `$name` or
`$\x7bname\x7d` with the binding's value when the name is bound, leave a
placeholder naming an absent variable as literal text unchanged, turn each
literal `$$` into one `$` character, and leave any other character -- and
any `$` not forming a placeholder -- alone. -/
def specSubstGo (binding : List (String × String)) : Nat → List Char → List Char
  | 0, cs => cs
  | _ + 1, [] => []
  | fuel + 1, c :: cs =>
    if c = '$' then
      match cs with
      | [] => ['$']
      | d :: ds =>
        if d = '$' then '$' :: specSubstGo binding fuel ds
        else if d = lbrace then
          match ds with
          | [] => '$' :: specSubstGo binding fuel cs
          | e :: es =>
            if isIdentStart e then
              let nm := e :: es.takeWhile isIdentCont
              match es.dropWhile isIdentCont with
              | [] => '$' :: specSubstGo binding fuel cs
              | r :: rs =>
                if r = rbrace then
                  match lookupA binding (String.mk nm) with
                  | some v => v.data ++ specSubstGo binding fuel rs
                  | none => '$' :: lbrace :: (nm ++ rbrace :: specSubstGo binding fuel rs)
                else '$' :: specSubstGo binding fuel cs
            else '$' :: specSubstGo binding fuel cs
        else if isIdentStart d then
          let nm := d :: ds.takeWhile isIdentCont
          let rest := ds.dropWhile isIdentCont
          match lookupA binding (String.mk nm) with
          | some v => v.data ++ specSubstGo binding fuel rest
          | none => '$' :: (nm ++ specSubstGo binding fuel rest)
        else '$' :: specSubstGo binding fuel cs
    else c :: specSubstGo binding fuel cs

/-- Spec-side string interpolation. -/
def specSubstStr (s : String) (binding : List (String × String)) : String :=
  String.mk (specSubstGo binding (s.data.length + 1) s.data)

mutual

/-- Spec-side `interpolate(body, binding)`, modelled on the words of spec
section 4.5: a mapping becomes a new mapping with both keys and values
recursively interpolated, a sequence a new sequence of recursively
interpolated elements, a string scalar is substituted, and non-string
scalars pass through unchanged. -/
def specInterpolate (binding : List (String × String)) : JValue → JValue
  | JValue.vmap entries => JValue.vmap (specInterpolateEntries binding entries)
  | JValue.vseq items => JValue.vseq (specInterpolateItems binding items)
  | JValue.vstr s => JValue.vstr (specSubstStr s binding)
  | v => v

/-- Spec-side elementwise interpolation of a sequence. -/
def specInterpolateItems (binding : List (String × String)) : List JValue → List JValue
  | [] => []
  | x :: xs => specInterpolate binding x :: specInterpolateItems binding xs

/-- Spec-side interpolation of a mapping's entries (keys and values). -/
def specInterpolateEntries (binding : List (String × String)) :
    List (String × JValue) → List (String × JValue)
  | [] => []
  | (k, v) :: rest =>
      (specSubstStr k binding, specInterpolate binding v) :: specInterpolateEntries binding rest

end

/-- Whether a list of strings is duplicate-free. -/
def distinctStrings : List String → Bool
  | [] => true
  | s :: rest => (!rest.contains s) && distinctStrings rest

mutual

/-- Whether interpolating a value under the given binding keeps the keys of
every mapping inside it pairwise distinct (so that the dict comprehension
of lines 211-214 drops no entry). -/
def keysDistinctAfter (binding : List (String × String)) : JValue → Bool
  | JValue.vmap entries =>
      distinctStrings (entries.map (fun kv => safeSubStr kv.1 binding))
        && keysDistinctAfterEntries binding entries
  | JValue.vseq items => keysDistinctAfterItems binding items
  | _ => true

/-- `keysDistinctAfter` over a sequence's items. -/
def keysDistinctAfterItems (binding : List (String × String)) : List JValue → Bool
  | [] => true
  | x :: xs => keysDistinctAfter binding x && keysDistinctAfterItems binding xs

/-- `keysDistinctAfter` over a mapping's entry values. -/
def keysDistinctAfterEntries (binding : List (String × String)) :
    List (String × JValue) → Bool
  | [] => true
  | (_, v) :: rest => keysDistinctAfter binding v && keysDistinctAfterEntries binding rest

end

/-- Spec-side Cartesian-product enumeration in odometer order (spec section
4.4): the first variable is the slowest-varying, the last the fastest. -/
def specCombos : List (List String) → List (List String)
  | [] => [[]]
  | vs :: rest => vs.flatMap (fun v => (specCombos rest).map (fun c => v :: c))

/-- The combination selected by an index tuple. -/
def comboAt : List (String × List String) → List Nat → List String
  | [], _ => []
  | _ :: _, [] => []
  | (_, vs) :: rest, i :: ix => vs.getD i "" :: comboAt rest ix

/-- The variable binding at an index tuple: each name bound to its selected
value, in declaration order. -/
def bindingAt : List (String × List String) → List Nat → List (String × String)
  | [], _ => []
  | _ :: _, [] => []
  | (n, vs) :: rest, i :: ix => (n, vs.getD i "") :: bindingAt rest ix

/-- The all-zero index tuple. -/
def zerosFor (specs : List (String × List String)) : List Nat :=
  specs.map (fun _ => 0)

/-- Pure successor of an index tuple in odometer order (last variable
fastest); `none` when every variable rolls over. -/
def pureSucc : List (String × List String) → List Nat → Option (List Nat)
  | [], _ => none
  | _ :: _, [] => none
  | (_, vs) :: rest, i :: ix =>
    match pureSucc rest ix with
    | some ix' => some (i :: ix')
    | none => if i + 1 < vs.length then some ((i + 1) :: zerosFor rest) else none

/-- Validity of an index tuple: same length as the spec list and each index
within its value list. -/
def ixValid : List (String × List String) → List Nat → Prop
  | [], [] => True
  | (_, vs) :: rest, i :: ix => i < vs.length ∧ ixValid rest ix
  | _, _ => False

/-- The suffix of the odometer enumeration that starts at a given index
tuple: the remaining combinations, in order. -/
def combosFrom : List (String × List String) → List Nat → List (List String)
  | [], _ => [[]]
  | _ :: _, [] => [[]]
  | (_, vs) :: rest, i :: ix =>
      ((combosFrom rest ix).map (fun c => vs.getD i "" :: c))
        ++ ((vs.drop (i + 1)).flatMap
              (fun v => (specCombos (rest.map Prod.snd)).map (fun c => v :: c)))

mutual

/-- Whether a document contains, anywhere, a single-entry mapping whose key
carries the reserved prefix (an unexpanded function-call node). -/
def containsReservedMap : JValue → Bool
  | JValue.vmap entries =>
      (entries.length == 1 && (entries.map Prod.fst).any isReservedKey)
        || containsReservedMapEntries entries
  | JValue.vseq items => containsReservedMapItems items
  | _ => false

/-- `containsReservedMap` over a sequence's items. -/
def containsReservedMapItems : List JValue → Bool
  | [] => false
  | x :: xs => containsReservedMap x || containsReservedMapItems xs

/-- `containsReservedMap` over a mapping's entry values. -/
def containsReservedMapEntries : List (String × JValue) → Bool
  | [] => false
  | (_, v) :: rest => containsReservedMap v || containsReservedMapEntries rest

end

/-
  Lemmas and claim theorems.
-/

lemma parseSpecs_mk (specs : List (String × List JValue)) :
    parseSpecs (specs.map (fun p => JValue.vseq [JValue.vstr p.1, JValue.vseq p.2])) =
      Except.ok (specs.map (fun p => (p.1, p.2.map pyStr))) := by
  induction specs with
  | nil => rfl
  | cons p rest ih => cases p with
    | mk n vs => simp [parseSpecs, ih, Except.bind]

/-- C9: For a ForEach call with an empty `iterationSpecs` (zero variables),
the computed value is a one-element sequence holding the body interpolated
once with the empty binding -- the empty product has one combination -- not
an empty sequence and not an error. -/
theorem forEach_zero_variables_single (body : JValue) :
    forEachCompute (JValue.vseq [JValue.vseq [], body]) =
      Except.ok [jsonStringSub [] body] := rfl

/-- C6: For a ForEach call whose (well-formed) iteration specs include at
least one variable with an empty value list, the computed value is the empty
sequence, for every body whatsoever -- the body is never interpolated. -/
theorem forEach_empty_valuelist (specs : List (String × List JValue)) (body : JValue)
    (hempty : specs.any (fun p => p.2.isEmpty) = true) :
    forEachCompute
      (JValue.vseq
        [JValue.vseq (specs.map (fun p => JValue.vseq [JValue.vstr p.1, JValue.vseq p.2])),
         body]) = Except.ok [] := by
  have hcoerce : ∀ (l : List (String × List JValue)),
      (l.map (fun p => (p.1, p.2.map pyStr))).any (fun sv => sv.2.isEmpty) =
        l.any (fun p => p.2.isEmpty) := by
    intro l
    induction l with
    | nil => rfl
    | cons p rest ih =>
        simp only [List.map_cons, List.any_cons, ih]
        cases p.2 <;> rfl
  simp [forEachCompute, parseSpecs_mk, Except.bind, hcoerce, hempty]

theorem forEach_empty_valuelist_witness :
    forEachCompute
      (JValue.vseq
        [JValue.vseq [JValue.vseq [JValue.vstr "x", JValue.vseq []]],
         JValue.vstr "${x}"]) = Except.ok [] :=
  forEach_empty_valuelist [("x", [])] (JValue.vstr "${x}") (by rfl)

/-- C8: splice raises the line-104 type-mismatch error whenever the parent
is not a sequence, and the line-99 type-mismatch error whenever the parent
is a sequence but the argument is not; both raises precede the function's
only mutation, so the parent is unchanged in either failure case. -/
theorem splice_type_mismatch (parent : JValue) (key : Nat) (fragment : JValue) :
    (isSeqB parent = false →
      splice parent key fragment = Except.error Err.spliceBadParent ∧
      spliceFinalParent parent key fragment = parent) ∧
    (isSeqB parent = true → isSeqB fragment = false →
      splice parent key fragment = Except.error Err.spliceNonSeqArg ∧
      spliceFinalParent parent key fragment = parent) := by
  constructor
  · intro h
    cases parent <;> simp [isSeqB] at h <;>
      simp [splice, spliceFinalParent]
  · intro hp hf
    cases parent <;> simp [isSeqB] at hp
    cases fragment <;> simp [isSeqB] at hf <;>
      simp [splice, spliceList, spliceFinalParent, Except.map]

theorem splice_type_mismatch_witness :
    (splice (JValue.vmap [("a", JValue.vnull)]) 0 (JValue.vseq [])
        = Except.error Err.spliceBadParent ∧
      spliceFinalParent (JValue.vmap [("a", JValue.vnull)]) 0 (JValue.vseq [])
        = JValue.vmap [("a", JValue.vnull)]) ∧
    (splice (JValue.vseq [JValue.vnull]) 0 (JValue.vstr "s")
        = Except.error Err.spliceNonSeqArg ∧
      spliceFinalParent (JValue.vseq [JValue.vnull]) 0 (JValue.vstr "s")
        = JValue.vseq [JValue.vnull]) :=
  ⟨(splice_type_mismatch (JValue.vmap [("a", JValue.vnull)]) 0 (JValue.vseq [])).1 rfl,
   (splice_type_mismatch (JValue.vseq [JValue.vnull]) 0 (JValue.vstr "s")).2 rfl rfl⟩

lemma findReserved_of_any (entries : List (String × JValue))
    (h : (entries.map Prod.fst).any isReservedKey = true) :
    ∃ kv, findReserved entries = some kv ∧ isReservedKey kv.1 = true := by
  induction entries with
  | nil => simp at h
  | cons kv rest ih =>
      by_cases hk : isReservedKey kv.1 = true
      · refine ⟨kv, ?_, hk⟩
        cases kv with
        | mk k v => simp [findReserved, hk]
      · have hk' : isReservedKey kv.1 = false := by
          cases hb : isReservedKey kv.1
          · rfl
          · exact absurd hb hk
        have : (rest.map Prod.fst).any isReservedKey = true := by
          simpa [List.any_cons, hk'] using h
        obtain ⟨kv', h1, h2⟩ := ih this
        exact ⟨kv', by cases kv with
          | mk k v => simpa [findReserved, hk' ] using h1, h2⟩

lemma callCheck_malformed (entries : List (String × JValue))
    (hres : (entries.map Prod.fst).any isReservedKey = true)
    (hlen : entries.length ≠ 1) :
    ∃ k, isReservedKey k = true ∧
      callCheck entries = Except.error (Err.malformedCall k) := by
  obtain ⟨kv, hfind, hkey⟩ := findReserved_of_any entries hres
  refine ⟨kv.1, hkey, ?_⟩
  cases kv with
  | mk k v => simp [callCheck, hfind, hlen]

/-- C7: A mapping whose children have converged and which still holds a
reserved-prefixed key together with at least one other entry makes
resolution fail with the malformed-call error, regardless of where the
reserved-prefixed entry sits in the mapping's insertion order. -/
theorem malformed_call_multi_entry (fuel : Nat)
    (entries entries' : List (String × JValue)) (seen' : List String)
    (hconv : mapConverge fuel MAX_RECURSION entries [] = Except.ok (entries', seen'))
    (hres : (entries'.map Prod.fst).any isReservedKey = true)
    (hlen : entries'.length ≠ 1) :
    ∃ k, isReservedKey k = true ∧
      resolveFragment (fuel + 1) (JValue.vmap entries) =
        Except.error (Err.malformedCall k) := by
  obtain ⟨k, hk, hcc⟩ := callCheck_malformed entries' hres hlen
  exact ⟨k, hk, by simp [resolveFragment, hconv, Except.bind, hcc]⟩

theorem malformed_call_multi_entry_witness :
    ∃ k, isReservedKey k = true ∧
      resolveFragment 21
          (JValue.vmap [("a", JValue.vnull), ("Turing::Splice", JValue.vseq [])]) =
        Except.error (Err.malformedCall k) :=
  malformed_call_multi_entry 20
    [("a", JValue.vnull), ("Turing::Splice", JValue.vseq [])] _ _ rfl (by rfl) (by decide)

/-- C10: A document whose root value is itself a function-call node of
either built-in never resolves successfully: the handler is dispatched
against the nonexistent root slot (`parent = None`), where Splice raises
its non-sequence-container TypeError and ForEach raises a TypeError when
assigning its computed result -- so resolution always ends in an error. -/
theorem root_call_always_fails (fuel : Nat) (v : JValue) (b : Builtin) (arg : JValue)
    (h : resolveFragment fuel v = Except.ok (StepResult.call b arg)) :
    ∃ e, processDocument fuel v = Except.error e := by
  cases b with
  | bSplice => exact ⟨Err.spliceBadParent, by simp [processDocument, h]⟩
  | bForEach =>
      cases hfe : forEachCompute arg with
      | ok r => exact ⟨Err.noneAssignment, by simp [processDocument, h, hfe]⟩
      | error e => exact ⟨e, by simp [processDocument, h, hfe]⟩

theorem root_call_always_fails_witness :
    (∃ e, processDocument 20
        (JValue.vmap [("Turing::Splice", JValue.vseq [JValue.vstr "a"])]) =
      Except.error e) ∧
    (∃ e, processDocument 20
        (JValue.vmap [("Turing::ForEach",
          JValue.vseq [JValue.vseq [], JValue.vstr "b"])]) =
      Except.error e) :=
  ⟨root_call_always_fails 20 _ Builtin.bSplice _ rfl,
   root_call_always_fails 20 _ Builtin.bForEach _ rfl⟩

lemma lt_length_of_getElem?_eq_some {l : List JValue} {i : Nat} {x : JValue}
    (h : l[i]? = some x) : i < l.length := by
  by_contra hc
  push_neg at hc
  rw [List.getElem?_eq_none hc] at h
  simp at h

/-- C1 (amended): when the element at index `i` of a sequence being walked
resolves to a Splice call with sequence argument `xs` of length `m`,
dispatching the call replaces exactly that one element by the `m` argument
elements in order (the length changes by `m - 1`), the walk's next step
resumes at index `i + 1` of the updated sequence, and the argument elements
occupy positions `i .. i + m - 1` of the updated sequence.  Hence, contrary
to the claim's elaboration, when `m > 1` the inserted elements after the
first (at positions `i + 1 ..`) ARE visited by this pass, and when `m = 0`
the element that slid into position `i` is skipped, since the walk continues
at `i + 1`. -/
theorem splice_walk_resumes_at_next_index (fuel : Nat) (items : List JValue)
    (i : Nat) (el : JValue) (xs : List JValue)
    (hel : items[i]? = some el)
    (hcall : resolveFragment fuel el =
      Except.ok (StepResult.call Builtin.bSplice (JValue.vseq xs))) :
    resolveListFrom (fuel + 1) items i =
      resolveListFrom fuel (items.take i ++ xs ++ items.drop (i + 1)) (i + 1) ∧
    (items.take i ++ xs ++ items.drop (i + 1)).length + 1 = items.length + xs.length ∧
    (∀ j, j < xs.length → (items.take i ++ xs ++ items.drop (i + 1))[i + j]? = xs[j]?) := by
  have hi : i < items.length := lt_length_of_getElem?_eq_some hel
  refine ⟨?_, ?_, ?_⟩
  · simp [resolveListFrom, hel, hcall, Except.bind, spliceList]
  · simp only [List.length_append, List.length_take, List.length_drop]
    omega
  · intro j hj
    rw [List.append_assoc, List.getElem?_append_right
        (by simp only [List.length_take]; omega),
      List.getElem?_append_left (by simp only [List.length_take]; omega)]
    congr 1
    simp only [List.length_take]
    omega

theorem splice_walk_resumes_witness :
    resolveListFrom 11
        [JValue.vmap [("Turing::Splice",
           JValue.vseq [JValue.vstr "c", JValue.vstr "d"])], JValue.vstr "e"] 0 =
      resolveListFrom 10
        [JValue.vstr "c", JValue.vstr "d", JValue.vstr "e"] 1 :=
  (splice_walk_resumes_at_next_index 10
    [JValue.vmap [("Turing::Splice", JValue.vseq [JValue.vstr "c", JValue.vstr "d"])],
     JValue.vstr "e"] 0 _ [JValue.vstr "c", JValue.vstr "d"] rfl rfl).1

/-- C1 counterexample: the claim's `m = 0` elaboration says the walk
continues at the element that slid into position `i`.  On the document
`[splice([]), splice(["q"]), "z"]` the first element splices in nothing
(m = 0), the call node that slid into position 0 is then skipped by the
walk -- which resumes at index 1 of the updated sequence -- and it survives
unexpanded in the final document; had the walk continued at the slid
element, the result would have been `["q", "z"]`. -/
theorem splice_walk_claim_counterexample :
    processDocument 60 (JValue.vseq
        [JValue.vmap [("Turing::Splice", JValue.vseq [])],
         JValue.vmap [("Turing::Splice", JValue.vseq [JValue.vstr "q"])],
         JValue.vstr "z"]) =
      Except.ok (JValue.vseq
        [JValue.vmap [("Turing::Splice", JValue.vseq [JValue.vstr "q"])],
         JValue.vstr "z"]) ∧
    containsReservedMap (JValue.vseq
        [JValue.vmap [("Turing::Splice", JValue.vseq [JValue.vstr "q"])],
         JValue.vstr "z"]) = true ∧
    (Except.ok (JValue.vseq
        [JValue.vmap [("Turing::Splice", JValue.vseq [JValue.vstr "q"])],
         JValue.vstr "z"]) : Except Err JValue) ≠
      Except.ok (JValue.vseq [JValue.vstr "q", JValue.vstr "z"]) :=
  ⟨rfl, rfl, by simp⟩

/-- C3 (amended): a handler's output is installed in its parent slot
without being passed back through the resolver at that moment -- a ForEach
result is assigned at the already-visited mapping key or at sequence
position `i` with the walk resuming at `i + 1`, and a visited mapping key is
skipped by every later pass -- but Splice's inserted elements after the
first land at positions `i + 1` onwards of the live sequence, which the
continuing walk does visit, so a reserved-prefix mapping among them is
dispatched rather than remaining unexpanded. -/
theorem function_output_one_shot (fuel : Nat) :
    (∀ (entries : List (String × JValue)) (k : String) (v arg : JValue)
        (res : List JValue),
      lookupA entries k = some v →
      resolveFragment fuel v = Except.ok (StepResult.call Builtin.bForEach arg) →
      forEachCompute arg = Except.ok res →
      mapStep (fuel + 1) entries k = Except.ok (asetP entries k (JValue.vseq res))) ∧
    (∀ (ks : List String) (entries : List (String × JValue)) (seen : List String)
        (flag : Bool) (k : String),
      seen.contains k = true →
      mapPassKeys (fuel + 1) (k :: ks) entries seen flag =
        mapPassKeys fuel ks entries seen flag) ∧
    (∀ (items : List JValue) (i : Nat) (el arg : JValue) (res : List JValue),
      items[i]? = some el →
      resolveFragment fuel el = Except.ok (StepResult.call Builtin.bForEach arg) →
      forEachCompute arg = Except.ok res →
      resolveListFrom (fuel + 1) items i =
        resolveListFrom fuel (items.set i (JValue.vseq res)) (i + 1)) ∧
    (∀ (items : List JValue) (i : Nat) (el : JValue) (xs : List JValue),
      items[i]? = some el →
      resolveFragment fuel el =
        Except.ok (StepResult.call Builtin.bSplice (JValue.vseq xs)) →
      resolveListFrom (fuel + 1) items i =
        resolveListFrom fuel (items.take i ++ xs ++ items.drop (i + 1)) (i + 1)) := by
  refine ⟨?_, ?_, ?_, ?_⟩
  · intro entries k v arg res hkv hcall hfe
    simp [mapStep, hkv, hcall, hfe, Except.bind]
  · intro ks entries seen flag k hk
    simp only [mapPassKeys]
    rw [if_pos hk]
  · intro items i el arg res hel hcall hfe
    simp [resolveListFrom, hel, hcall, hfe, Except.bind]
  · intro items i el xs hel hcall
    simp [resolveListFrom, hel, hcall, Except.bind, spliceList]

theorem function_output_one_shot_witness :
    mapStep 21 [("k", JValue.vmap [("Turing::ForEach",
        JValue.vseq [JValue.vseq [], JValue.vstr "b"])])] "k" =
      Except.ok (asetP [("k", JValue.vmap [("Turing::ForEach",
        JValue.vseq [JValue.vseq [], JValue.vstr "b"])])] "k"
        (JValue.vseq [JValue.vstr "b"])) :=
  (function_output_one_shot 20).1
    [("k", JValue.vmap [("Turing::ForEach",
        JValue.vseq [JValue.vseq [], JValue.vstr "b"])])] "k" _ _ [JValue.vstr "b"]
    rfl rfl rfl

/-- C3 counterexample: on the document
`[splice(["x", splice([]), splice(["y","z"])]), "end"]` the inner `m = 0`
splice makes its sibling call node survive the argument's own resolution
pass; the outer splice then inserts that still-unexpanded reserved-prefix
mapping as its second element, at position 1 of the live sequence; the
continuing walk visits position 1 and dispatches it, producing
`["x","y","z","end"]` with no reserved-prefix mapping left -- so a
spliced-in function-call mapping does not remain unexpanded, and handler
output spliced into the walked sequence IS dispatched again by the same
resolution, contrary to the claim. -/
theorem function_output_rewalk_counterexample :
    processDocument 60 (JValue.vseq
        [JValue.vmap [("Turing::Splice", JValue.vseq
          [JValue.vstr "x",
           JValue.vmap [("Turing::Splice", JValue.vseq [])],
           JValue.vmap [("Turing::Splice",
             JValue.vseq [JValue.vstr "y", JValue.vstr "z"])]])],
         JValue.vstr "end"]) =
      Except.ok (JValue.vseq
        [JValue.vstr "x", JValue.vstr "y", JValue.vstr "z", JValue.vstr "end"]) ∧
    containsReservedMap (JValue.vseq
        [JValue.vstr "x", JValue.vstr "y", JValue.vstr "z", JValue.vstr "end"]) = false ∧
    containsReservedMap (JValue.vseq
        [JValue.vstr "x",
         JValue.vmap [("Turing::Splice",
           JValue.vseq [JValue.vstr "y", JValue.vstr "z"])]]) = true :=
  ⟨rfl, rfl, rfl⟩

lemma runPassG_lift (f : List (String × JValue) → String → List (String × JValue)) :
    ∀ (ks : List String) (entries : List (String × JValue)) (seen : List String)
      (flag : Bool),
      runPassG (liftStep f) ks entries seen flag =
        Except.ok ((purePassAux f ks entries seen).1,
          (purePassAux f ks entries seen).2,
          flag || ks.any (fun k => !seen.contains k)) := by
  intro ks
  induction ks with
  | nil => intro entries seen flag; simp [runPassG, purePassAux]
  | cons k ks ih =>
      intro entries seen flag
      cases hk : seen.contains k with
      | true =>
          simp only [runPassG, purePassAux, hk, if_pos, List.any_cons, Bool.not_true,
            Bool.false_or, ih]
      | false =>
          simp only [runPassG, purePassAux, hk, List.any_cons, Bool.not_false,
            Bool.true_or, Bool.or_true, if_neg, Bool.false_eq_true, not_false_iff,
            liftStep, Except.bind, ih]

lemma purePassAux_all_seen (f : List (String × JValue) → String → List (String × JValue)) :
    ∀ (ks : List String) (entries : List (String × JValue)) (seen : List String),
      ks.any (fun k => !seen.contains k) = false →
      purePassAux f ks entries seen = (entries, seen) := by
  intro ks
  induction ks with
  | nil => intro entries seen _; rfl
  | cons k ks ih =>
      intro entries seen h
      simp only [List.any_cons, Bool.or_eq_false_iff, Bool.not_eq_false'] at h
      simp only [purePassAux, h.1, if_pos]
      exact ih entries seen h.2

lemma convergeG_lift_char (f : List (String × JValue) → String → List (String × JValue)) :
    ∀ (n : Nat) (entries : List (String × JValue)) (seen : List String),
      (convergeG (liftStep f) n entries seen = Except.error Err.convergenceErr ↔
        leftoverKeys (Nat.iterate (purePass f) n (entries, seen)) ≠ []) := by
  intro n
  induction n with
  | zero =>
      intro entries seen
      simp only [convergeG, Nat.iterate, leftoverKeys]
      constructor
      · intro h hfil
        by_cases hany : (entries.map Prod.fst).any (fun k => !seen.contains k) = true
        · rw [List.any_eq_true] at hany
          obtain ⟨k, hk1, hk2⟩ := hany
          rw [List.filter_eq_nil_iff] at hfil
          exact hfil k hk1 hk2
        · rw [if_neg hany] at h
          exact absurd h (by simp)
      · intro hfil
        have hany : (entries.map Prod.fst).any (fun k => !seen.contains k) = true := by
          rcases hne : (entries.map Prod.fst).filter (fun k => !seen.contains k) with _ | ⟨k, ks⟩
          · exact absurd hne hfil
          · have hk : k ∈ (entries.map Prod.fst).filter (fun k => !seen.contains k) := by
              rw [hne]; exact List.mem_cons_self k ks
            rw [List.mem_filter] at hk
            rw [List.any_eq_true]
            exact ⟨k, hk.1, hk.2⟩
        rw [if_pos hany]
  | succ n ih =>
      intro entries seen
      have hpass := runPassG_lift f (entries.map Prod.fst) entries seen false
      simp only [convergeG, hpass, Except.bind, Bool.false_or]
      cases hany : (entries.map Prod.fst).any (fun k => !seen.contains k) with
      | true =>
          simp only [if_pos]
          rw [Function.iterate_succ_apply]
          exact ih (purePassAux f (entries.map Prod.fst) entries seen).1
            (purePassAux f (entries.map Prod.fst) entries seen).2
      | false =>
          have hfix : purePassAux f (entries.map Prod.fst) entries seen = (entries, seen) :=
            purePassAux_all_seen f _ entries seen hany
          simp only [hfix, Bool.false_eq_true, if_neg, not_false_iff]
          constructor
          · intro h; exact absurd h (by simp)
          · intro h
            exfalso
            apply h
            have hfixpt : purePass f (entries, seen) = (entries, seen) := by
              simp [purePass, hfix]
            rw [Function.iterate_fixed hfixpt]
            simp only [leftoverKeys]
            rw [List.filter_eq_nil_iff]
            intro k hk
            rw [List.any_eq_false] at hany
            exact hany k hk

/-- C4: The walker's mapping loop (lines 45-65, with the child-resolution
step abstracted as an arbitrary mapping-rewriting function, as the spec's
contract for handlers permits): each pass visits only keys not seen in a
prior pass of the same mapping, a pass that visits no new key terminates
the loop immediately with success, the loop runs at most `MAX_RECURSION`
(16) passes, and resolution fails with the convergence error exactly when,
after the 16th pass, some key of the (current) mapping is still unvisited. -/
theorem mapping_convergence_characterization
    (f : List (String × JValue) → String → List (String × JValue))
    (entries : List (String × JValue)) :
    (convergeG (liftStep f) MAX_RECURSION entries [] =
        Except.error Err.convergenceErr ↔
      leftoverKeys (Nat.iterate (purePass f) MAX_RECURSION (entries, [])) ≠ []) ∧
    (∀ (e : List (String × JValue)) (seen : List String) (n : Nat),
      leftoverKeys (e, seen) = [] →
      convergeG (liftStep f) (n + 1) e seen = Except.ok (e, seen)) := by
  constructor
  · exact convergeG_lift_char f MAX_RECURSION entries []
  · intro e seen n hleft
    have hany : (e.map Prod.fst).any (fun k => !seen.contains k) = false := by
      rw [List.any_eq_false]
      intro k hk
      simp only [leftoverKeys] at hleft
      rw [List.filter_eq_nil_iff] at hleft
      exact hleft k hk
    have hfix : purePassAux f (e.map Prod.fst) e seen = (e, seen) :=
      purePassAux_all_seen f _ e seen hany
    simp only [convergeG, runPassG_lift f, Except.bind, Bool.false_or, hany, hfix,
      Bool.false_eq_true, if_neg, not_false_iff]

theorem mapping_convergence_witness :
    convergeG (liftStep (fun e _ => e)) 1 [("a", JValue.vnull)] ["a"] =
      Except.ok ([("a", JValue.vnull)], ["a"]) :=
  (mapping_convergence_characterization (fun e _ => e) [("a", JValue.vnull)]).2
    [("a", JValue.vnull)] ["a"] 0 rfl

lemma subst_scanners_eq (m : List (String × String)) :
    ∀ (fuel : Nat) (cs : List Char), safeSubGo m fuel cs = specSubstGo m fuel cs := by
  intro fuel
  induction fuel with
  | zero => intro cs; rfl
  | succ n ih =>
      intro cs
      cases cs with
      | nil => rfl
      | cons c cs => simp only [safeSubGo, specSubstGo, ih]

lemma subst_strings_eq (s : String) (m : List (String × String)) :
    safeSubStr s m = specSubstStr s m := by
  simp only [safeSubStr, specSubstStr, subst_scanners_eq]

lemma contains_false_iff (l : List String) (s : String) :
    l.contains s = false ↔ s ∉ l := by
  rw [← Bool.not_eq_true]
  simp

lemma distinctStrings_cons (s : String) (rest : List String) :
    distinctStrings (s :: rest) = true ↔
      (rest.contains s = false ∧ distinctStrings rest = true) := by
  simp [distinctStrings, Bool.and_eq_true, Bool.not_eq_true']

lemma asetP_notmem {α : Type} :
    ∀ (l : List (String × α)) (k : String) (v : α),
      (l.map Prod.fst).contains k = false → asetP l k v = l ++ [(k, v)] := by
  intro l
  induction l with
  | nil => intro k v _; rfl
  | cons kv rest ih =>
      intro k v h
      rw [List.map_cons, List.contains_cons] at h
      have h1 : (k == kv.1) = false := by
        cases hb : (k == kv.1)
        · rfl
        · rw [hb] at h; simp at h
      have h2 : (rest.map Prod.fst).contains k = false := by
        cases hb : (rest.map Prod.fst).contains k
        · rfl
        · rw [hb] at h; simp at h
      have hne : kv.1 ≠ k := by
        intro he
        rw [he] at h1
        simp at h1
      cases kv with
      | mk k' v' =>
          simp only [asetP, if_neg hne, List.cons_append, List.cons.injEq, true_and]
          exact ih k v h2

lemma foldl_asetP_append :
    ∀ (l acc : List (String × JValue)),
      distinctStrings (l.map Prod.fst) = true →
      (∀ kv ∈ l, (acc.map Prod.fst).contains kv.1 = false) →
      l.foldl (fun a kv => asetP a kv.1 kv.2) acc = acc ++ l := by
  intro l
  induction l with
  | nil => intro acc _ _; simp [List.foldl]
  | cons kv rest ih =>
      intro acc hdist hacc
      rw [List.map_cons, distinctStrings_cons] at hdist
      rw [List.foldl_cons]
      rw [asetP_notmem acc kv.1 kv.2 (hacc kv (List.mem_cons_self kv rest))]
      rw [ih (acc ++ [kv]) hdist.2 ?_]
      · simp
      · intro kv' hkv'
        rw [contains_false_iff]
        rw [List.map_append, List.mem_append]
        rintro (hmem | hmem)
        · exact absurd hmem ((contains_false_iff _ _).mp
            (hacc kv' (List.mem_cons_of_mem kv hkv')))
        · simp only [List.map_cons, List.map_nil, List.mem_singleton] at hmem
          have : kv'.1 ∈ rest.map Prod.fst := List.mem_map_of_mem Prod.fst hkv'
          rw [hmem] at this
          exact absurd this ((contains_false_iff _ _).mp hdist.1)

lemma dedupEntries_distinct (l : List (String × JValue))
    (h : distinctStrings (l.map Prod.fst) = true) : dedupEntries l = l := by
  rw [dedupEntries]
  rw [foldl_asetP_append l [] h (by intro kv _; rfl)]
  rfl

lemma jsonStringSubEntries_keys (m : List (String × String)) :
    ∀ (entries : List (String × JValue)),
      (jsonStringSubEntries m entries).map Prod.fst =
        entries.map (fun kv => safeSubStr kv.1 m) := by
  intro entries
  induction entries with
  | nil => rfl
  | cons kv rest ih =>
      cases kv with
      | mk k v => simp [jsonStringSubEntries, ih]

lemma jsub_spec_all (m : List (String × String)) :
    (∀ v, keysDistinctAfter m v = true → jsonStringSub m v = specInterpolate m v) ∧
    (∀ items, keysDistinctAfterItems m items = true →
      jsonStringSubItems m items = specInterpolateItems m items) ∧
    (∀ entries, keysDistinctAfterEntries m entries = true →
      jsonStringSubEntries m entries = specInterpolateEntries m entries) := by
  refine jsonStringSub.mutual_induct m
    (fun v => keysDistinctAfter m v = true → jsonStringSub m v = specInterpolate m v)
    (fun items => keysDistinctAfterItems m items = true →
      jsonStringSubItems m items = specInterpolateItems m items)
    (fun entries => keysDistinctAfterEntries m entries = true →
      jsonStringSubEntries m entries = specInterpolateEntries m entries)
    ?_ ?_ ?_ ?_ ?_ ?_ ?_ ?_
  · intro entries ihe h
    rw [keysDistinctAfter, Bool.and_eq_true] at h
    rw [jsonStringSub, specInterpolate]
    rw [dedupEntries_distinct _ (by rw [jsonStringSubEntries_keys]; exact h.1)]
    rw [ihe h.2]
  · intro items ihi h
    rw [keysDistinctAfter] at h
    rw [jsonStringSub, specInterpolate, ihi h]
  · intro s _
    rw [jsonStringSub, specInterpolate, subst_strings_eq]
  · intro v hmap hseq hstr _
    cases v with
    | vmap entries => exact absurd rfl (hmap entries)
    | vseq items => exact absurd rfl (hseq items)
    | vstr s => exact absurd rfl (hstr s)
    | vint n => rfl
    | vbool b => rfl
    | vnull => rfl
  · intro _; rfl
  · intro x xs ihx ihxs h
    rw [keysDistinctAfterItems, Bool.and_eq_true] at h
    rw [jsonStringSubItems, specInterpolateItems, ihx h.1, ihxs h.2]
  · intro _; rfl
  · intro k v rest ihv ihr h
    rw [keysDistinctAfterEntries, Bool.and_eq_true] at h
    rw [jsonStringSubEntries, specInterpolateEntries, ihv h.1, ihr h.2,
      subst_strings_eq]

/-- C5: `json_string_sub` agrees with the spec's description of the
interpolator -- a pure function that, for a mapping, returns a new mapping
with both keys and values recursively interpolated; for a sequence, a new
sequence of recursively interpolated elements; for a string scalar,
replaces every `$name` and braced placeholder whose name is bound, leaves
placeholders naming absent variables verbatim (never failing), and turns
each literal `$$` into one `$`; and returns non-string scalars unchanged.
The hypothesis asks that interpolation keep the keys of every mapping
inside the value pairwise distinct, so that rebuilding a Python dict drops
no entry; the spec's data model requires mapping keys to be unique. -/
theorem interpolate_matches_spec (m : List (String × String)) (v : JValue)
    (h : keysDistinctAfter m v = true) :
    jsonStringSub m v = specInterpolate m v :=
  (jsub_spec_all m).1 v h

theorem interpolate_matches_spec_witness :
    jsonStringSub [("x", "1")]
        (JValue.vmap [("k${x}", JValue.vseq
          [JValue.vstr "Hi ${missing}", JValue.vstr "a$$b", JValue.vint 7])]) =
      specInterpolate [("x", "1")]
        (JValue.vmap [("k${x}", JValue.vseq
          [JValue.vstr "Hi ${missing}", JValue.vstr "a$$b", JValue.vint 7])]) ∧
    specInterpolate [("x", "1")]
        (JValue.vmap [("k${x}", JValue.vseq
          [JValue.vstr "Hi ${missing}", JValue.vstr "a$$b", JValue.vint 7])]) =
      JValue.vmap [("k1", JValue.vseq
        [JValue.vstr "Hi ${missing}", JValue.vstr "a$b", JValue.vint 7])] :=
  ⟨interpolate_matches_spec [("x", "1")] _ rfl, rfl⟩

lemma bindingAt_eq_zip :
    ∀ (specs : List (String × List String)) (ix : List Nat),
      bindingAt specs ix = (specs.map Prod.fst).zip (comboAt specs ix) := by
  intro specs
  induction specs with
  | nil => intro ix; rfl
  | cons sv rest ih =>
      intro ix
      cases ix with
      | nil => cases sv; rfl
      | cons i ixr => cases sv with
        | mk n vs => simp [bindingAt, comboAt, List.zip, ih]

lemma asetP_append_head {α : Type} :
    ∀ (p : List (String × α)) (k : String) (x w : α) (B : List (String × α)),
      k ∉ p.map Prod.fst →
      asetP (p ++ (k, x) :: B) k w = p ++ (k, w) :: B := by
  intro p
  induction p with
  | nil => intro k x w B _; simp [asetP]
  | cons kv rest ih =>
      intro k x w B h
      rw [List.map_cons, List.mem_cons] at h
      push_neg at h
      cases kv with
      | mk k' v' =>
          have hne : k' ≠ k := fun he => h.1 he.symm
          simp only [List.cons_append, asetP, if_neg hne, List.cons.injEq, true_and]
          exact ih k x w B h.2

lemma ixValid_zeros :
    ∀ (specs : List (String × List String)),
      (∀ sv ∈ specs, sv.2 ≠ []) → ixValid specs (zerosFor specs) := by
  intro specs
  induction specs with
  | nil => intro _; trivial
  | cons sv rest ih =>
      intro h
      cases sv with
      | mk n vs =>
          refine ⟨?_, ih (fun sv hs => h sv (List.mem_cons_of_mem _ hs))⟩
          have : vs ≠ [] := h (n, vs) (List.mem_cons_self _ _)
          cases vs with
          | nil => exact absurd rfl this
          | cons a t => simp

lemma ixValid_nonempty :
    ∀ (specs : List (String × List String)) (ix : List Nat),
      ixValid specs ix → ∀ sv ∈ specs, sv.2 ≠ [] := by
  intro specs
  induction specs with
  | nil => intro ix _ sv hs; simp at hs
  | cons sv0 rest ih =>
      intro ix hv sv hs
      cases ix with
      | nil => cases sv0; exact absurd hv (by simp [ixValid])
      | cons i ixr =>
          cases sv0 with
          | mk n vs =>
              rcases List.mem_cons.mp hs with he | hm
              · subst he
                intro hnil
                have h1 := hv.1
                have h2 : vs = [] := hnil
                rw [h2] at h1
                simp at h1
              · exact ih ixr hv.2 sv hm

lemma pureSucc_valid :
    ∀ (specs : List (String × List String)) (ix ix' : List Nat),
      ixValid specs ix → pureSucc specs ix = some ix' → ixValid specs ix' := by
  intro specs
  induction specs with
  | nil => intro ix ix' _ h; simp [pureSucc] at h
  | cons sv rest ih =>
      intro ix ix' hv h
      cases ix with
      | nil => cases sv; exact absurd hv (by simp [ixValid])
      | cons i ixr =>
          cases sv with
          | mk n vs =>
              rw [pureSucc] at h
              cases hs : pureSucc rest ixr with
              | some ix'' =>
                  rw [hs] at h
                  cases h
                  exact ⟨hv.1, ih ixr ix'' hv.2 hs⟩
              | none =>
                  rw [hs] at h
                  by_cases hlt : i + 1 < vs.length
                  · rw [if_pos hlt] at h
                    cases h
                    exact ⟨hlt, ixValid_zeros rest (ixValid_nonempty rest ixr hv.2)⟩
                  · rw [if_neg hlt] at h
                    exact absurd h (by simp)

lemma specCombos_length :
    ∀ (ls : List (List String)),
      (specCombos ls).length = (ls.map List.length).prod := by
  intro ls
  induction ls with
  | nil => rfl
  | cons vs rest ih =>
      rw [specCombos, List.map_cons, List.prod_cons, ← ih]
      induction vs with
      | nil => simp
      | cons v t iht =>
          rw [List.flatMap_cons, List.length_append, List.length_map, iht]
          rw [List.length_cons]
          ring

lemma combosFrom_ne_nil :
    ∀ (specs : List (String × List String)) (ix : List Nat),
      combosFrom specs ix ≠ [] := by
  intro specs
  induction specs with
  | nil => intro ix; simp [combosFrom]
  | cons sv rest ih =>
      intro ix
      cases ix with
      | nil => cases sv; simp [combosFrom]
      | cons i ixr =>
          cases sv with
          | mk n vs =>
              rw [combosFrom]
              intro h
              rcases List.append_eq_nil.mp h with ⟨h1, _⟩
              exact ih ixr (by simpa using List.map_eq_nil_iff.mp h1)

lemma combosFrom_zeros :
    ∀ (specs : List (String × List String)),
      (∀ sv ∈ specs, sv.2 ≠ []) →
      combosFrom specs (zerosFor specs) = specCombos (specs.map Prod.snd) := by
  intro specs
  induction specs with
  | nil => intro _; rfl
  | cons sv rest ih =>
      intro h
      cases sv with
      | mk n vs =>
          have hvs : vs ≠ [] := h (n, vs) (List.mem_cons_self _ _)
          have ihr := ih (fun sv hs => h sv (List.mem_cons_of_mem _ hs))
          cases vs with
          | nil => exact absurd rfl hvs
          | cons a t =>
              show combosFrom ((n, a :: t) :: rest) (0 :: zerosFor rest) = _
              rw [combosFrom, ihr]
              simp [specCombos, List.flatMap_cons]

lemma odoStep_cons_stepped {n : String} {vs : List String}
    {rest : List (String × List String)} {i : Nat} {ixr : List Nat}
    {cur cur' : List (String × String)} {ix' : List Nat}
    (h : odoStep rest ixr cur = OdoRes.stepped ix' cur') :
    odoStep ((n, vs) :: rest) (i :: ixr) cur = OdoRes.stepped (i :: ix') cur' := by
  rw [odoStep, h]

lemma odoStep_cons_rolled_lt {n : String} {vs : List String}
    {rest : List (String × List String)} {i : Nat} {ixr : List Nat}
    {cur cur' : List (String × String)} {ix' : List Nat}
    (h : odoStep rest ixr cur = OdoRes.rolled ix' cur') (hlt : i + 1 < vs.length) :
    odoStep ((n, vs) :: rest) (i :: ixr) cur =
      OdoRes.stepped ((i + 1) :: ix') (asetP cur' n (vs.getD (i + 1) "")) := by
  rw [odoStep, h]
  simp only [if_pos hlt]

lemma odoStep_cons_rolled_ge {n : String} {vs : List String}
    {rest : List (String × List String)} {i : Nat} {ixr : List Nat}
    {cur cur' : List (String × String)} {ix' : List Nat}
    (h : odoStep rest ixr cur = OdoRes.rolled ix' cur') (hlt : ¬ i + 1 < vs.length) :
    odoStep ((n, vs) :: rest) (i :: ixr) cur =
      OdoRes.rolled (0 :: ix') (asetP cur' n (vs.getD 0 "")) := by
  rw [odoStep, h]
  simp only [if_neg hlt]

lemma odoStep_char :
    ∀ (specs : List (String × List String)) (ix : List Nat)
      (p : List (String × String)),
      ixValid specs ix →
      distinctStrings (specs.map Prod.fst) = true →
      (∀ s ∈ specs.map Prod.fst, s ∉ p.map Prod.fst) →
      (pureSucc specs ix = none →
        odoStep specs ix (p ++ bindingAt specs ix) =
          OdoRes.rolled (zerosFor specs) (p ++ bindingAt specs (zerosFor specs))) ∧
      (∀ ix', pureSucc specs ix = some ix' →
        odoStep specs ix (p ++ bindingAt specs ix) =
          OdoRes.stepped ix' (p ++ bindingAt specs ix')) := by
  intro specs
  induction specs with
  | nil =>
      intro ix p hv _ _
      cases ix with
      | nil =>
          constructor
          · intro _; rfl
          · intro ix' h; simp [pureSucc] at h
      | cons i ixr => exact absurd hv (by simp [ixValid])
  | cons sv rest ih =>
      intro ix p hv hdist hdisj
      cases ix with
      | nil => cases sv; exact absurd hv (by simp [ixValid])
      | cons i ixr =>
      cases sv with
      | mk n vs =>
      have hvi : i < vs.length := hv.1
      have hvr : ixValid rest ixr := hv.2
      rw [List.map_cons, distinctStrings_cons] at hdist
      have hdisj' : ∀ s ∈ rest.map Prod.fst,
          s ∉ (p ++ [(n, vs.getD i "")]).map Prod.fst := by
        intro s hs
        rw [List.map_append, List.mem_append]
        push_neg
        refine ⟨hdisj s (List.mem_cons_of_mem _ hs), ?_⟩
        simp only [List.map_cons, List.map_nil, List.mem_singleton]
        intro he
        rw [he] at hs
        exact absurd hs ((contains_false_iff _ _).mp hdist.1)
      have hnp : n ∉ p.map Prod.fst := hdisj n (List.mem_cons_self _ _)
      have key : p ++ bindingAt ((n, vs) :: rest) (i :: ixr) =
          (p ++ [(n, vs.getD i "")]) ++ bindingAt rest ixr := by
        simp [bindingAt]
      have ihr := ih ixr (p ++ [(n, vs.getD i "")]) hvr hdist.2 hdisj'
      constructor
      · intro h
        rw [pureSucc] at h
        cases hs : pureSucc rest ixr with
        | some ix'' => rw [hs] at h; exact absurd h (by simp)
        | none =>
            rw [hs] at h
            by_cases hlt : i + 1 < vs.length
            · rw [if_pos hlt] at h; exact absurd h (by simp)
            · rw [key, odoStep_cons_rolled_ge (ihr.1 hs) hlt]
              rw [List.append_assoc, List.singleton_append,
                asetP_append_head p n _ _ _ hnp]
              rfl
      · intro ix' h
        rw [pureSucc] at h
        cases hs : pureSucc rest ixr with
        | some ix'' =>
            rw [hs] at h
            cases h
            rw [key, odoStep_cons_stepped (ihr.2 ix'' hs)]
            rw [List.append_assoc, List.singleton_append]
            rfl
        | none =>
            rw [hs] at h
            by_cases hlt : i + 1 < vs.length
            · rw [if_pos hlt] at h
              cases h
              rw [key, odoStep_cons_rolled_lt (ihr.1 hs) hlt]
              rw [List.append_assoc, List.singleton_append,
                asetP_append_head p n _ _ _ hnp]
              rfl
            · rw [if_neg hlt] at h
              exact absurd h (by simp)

lemma combosFrom_peel :
    ∀ (specs : List (String × List String)) (ix : List Nat),
      ixValid specs ix →
      (pureSucc specs ix = none → combosFrom specs ix = [comboAt specs ix]) ∧
      (∀ ix', pureSucc specs ix = some ix' →
        combosFrom specs ix = comboAt specs ix :: combosFrom specs ix') := by
  intro specs
  induction specs with
  | nil =>
      intro ix hv
      cases ix with
      | nil =>
          refine ⟨fun _ => rfl, fun ix' h => ?_⟩
          simp [pureSucc] at h
      | cons i ixr => exact absurd hv (by simp [ixValid])
  | cons sv rest ih =>
      intro ix hv
      cases ix with
      | nil => cases sv; exact absurd hv (by simp [ixValid])
      | cons i ixr =>
      cases sv with
      | mk n vs =>
      have hvi : i < vs.length := hv.1
      have hvr : ixValid rest ixr := hv.2
      have ihr := ih ixr hvr
      have hnonempty := ixValid_nonempty rest ixr hvr
      constructor
      · intro h
        rw [pureSucc] at h
        cases hs : pureSucc rest ixr with
        | some ix'' => rw [hs] at h; exact absurd h (by simp)
        | none =>
            rw [hs] at h
            by_cases hlt : i + 1 < vs.length
            · rw [if_pos hlt] at h; exact absurd h (by simp)
            · have hdrop : vs.drop (i + 1) = [] :=
                List.drop_eq_nil_of_le (by omega)
              simp only [combosFrom, ihr.1 hs, hdrop, List.flatMap_nil,
                List.append_nil, List.map_cons, List.map_nil]
              rfl
      · intro ix' h
        rw [pureSucc] at h
        cases hs : pureSucc rest ixr with
        | some ix'' =>
            rw [hs] at h
            cases h
            simp only [combosFrom, ihr.2 ix'' hs, List.map_cons, List.cons_append]
            rfl
        | none =>
            rw [hs] at h
            by_cases hlt : i + 1 < vs.length
            · rw [if_pos hlt] at h
              cases h
              simp only [combosFrom, ihr.1 hs,
                combosFrom_zeros rest hnonempty,
                List.drop_eq_getElem_cons hlt, List.flatMap_cons,
                List.getD_eq_getElem vs "" hlt,
                List.map_cons, List.map_nil, List.singleton_append,
                List.cons_append, List.nil_append]
              rfl
            · rw [if_neg hlt] at h
              exact absurd h (by simp)

lemma forEachLoop_combos (body : JValue) (specs : List (String × List String))
    (hdist : distinctStrings (specs.map Prod.fst) = true) :
    ∀ (fuel : Nat) (ix : List Nat),
      ixValid specs ix →
      (combosFrom specs ix).length ≤ fuel →
      forEachLoop fuel body specs ix (bindingAt specs ix) =
        (combosFrom specs ix).map
          (fun c => jsonStringSub ((specs.map Prod.fst).zip c) body) := by
  intro fuel
  induction fuel with
  | zero =>
      intro ix hv hlen
      have hne := combosFrom_ne_nil specs ix
      rw [Nat.le_zero, List.length_eq_zero] at hlen
      exact absurd hlen hne
  | succ fuel ihf =>
      intro ix hv hlen
      have hchar := odoStep_char specs ix [] hv hdist (by intro s _; simp)
      cases hs : pureSucc specs ix with
      | none =>
          have hstep := hchar.1 hs
          simp only [List.nil_append] at hstep
          rw [forEachLoop, hstep]
          show [jsonStringSub (bindingAt specs ix) body] = _
          rw [(combosFrom_peel specs ix hv).1 hs]
          simp [bindingAt_eq_zip]
      | some ix' =>
          have hstep := hchar.2 ix' hs
          simp only [List.nil_append] at hstep
          rw [forEachLoop, hstep]
          show jsonStringSub (bindingAt specs ix) body ::
              forEachLoop fuel body specs ix' (bindingAt specs ix') = _
          have hv' := pureSucc_valid specs ix ix' hv hs
          have hlen' : (combosFrom specs ix').length ≤ fuel := by
            have hp := congrArg List.length ((combosFrom_peel specs ix hv).2 ix' hs)
            rw [List.length_cons] at hp
            omega
          rw [(combosFrom_peel specs ix hv).2 ix' hs, List.map_cons,
            ← ihf ix' hv' hlen', ← bindingAt_eq_zip]

lemma headD_eq_getD_zero (vs : List String) : vs.headD "" = vs.getD 0 "" := by
  cases vs <;> rfl

lemma initCurrent_aux :
    ∀ (specs : List (String × List String)) (acc : List (String × String)),
      distinctStrings (specs.map Prod.fst) = true →
      (∀ s ∈ specs.map Prod.fst, s ∉ acc.map Prod.fst) →
      specs.foldl (fun a nv => asetP a nv.1 (nv.2.headD "")) acc =
        acc ++ bindingAt specs (zerosFor specs) := by
  intro specs
  induction specs with
  | nil => intro acc _ _; simp [bindingAt, zerosFor]
  | cons sv rest ih =>
      intro acc hdist hdisj
      cases sv with
      | mk n vs =>
      rw [List.map_cons, distinctStrings_cons] at hdist
      rw [List.foldl_cons]
      have hnacc : ((acc.map Prod.fst).contains n) = false := by
        rw [contains_false_iff]
        exact hdisj n (List.mem_cons_self _ _)
      rw [asetP_notmem acc n (vs.headD "") hnacc]
      rw [ih (acc ++ [(n, vs.headD "")]) hdist.2 ?_]
      · rw [List.append_assoc, List.singleton_append, headD_eq_getD_zero]
        rfl
      · intro s hs
        rw [List.map_append, List.mem_append]
        push_neg
        refine ⟨hdisj s (List.mem_cons_of_mem _ hs), ?_⟩
        simp only [List.map_cons, List.map_nil, List.mem_singleton]
        intro he
        rw [he] at hs
        exact absurd hs ((contains_false_iff _ _).mp hdist.1)

lemma initCurrent_eq (specs : List (String × List String))
    (hdist : distinctStrings (specs.map Prod.fst) = true) :
    initCurrent specs = bindingAt specs (zerosFor specs) := by
  rw [initCurrent, initCurrent_aux specs [] hdist (by intro s _; simp),
    List.nil_append]

/-- C2: For every ForEach call with pairwise-distinct variable names and
non-empty value lists, the computed result enumerates the Cartesian product
in odometer order -- spec-side `specCombos`, whose first variable is the
slowest-varying and last the fastest -- with each element the body
interpolated under the fresh binding of that combination, and its length is
the product of the value-list lengths. -/
theorem forEach_product_odometer (specs : List (String × List JValue)) (body : JValue)
    (hdist : distinctStrings (specs.map Prod.fst) = true)
    (hne : specs.all (fun p => !p.2.isEmpty) = true) :
    forEachCompute (JValue.vseq
        [JValue.vseq (specs.map (fun p => JValue.vseq [JValue.vstr p.1, JValue.vseq p.2])),
         body]) =
      Except.ok ((specCombos (specs.map (fun p => p.2.map pyStr))).map
        (fun c => jsonStringSub ((specs.map Prod.fst).zip c) body)) ∧
    (specCombos (specs.map (fun p => p.2.map pyStr))).length =
      (specs.map (fun p => p.2.length)).prod := by
  have hnames : (specs.map (fun p => (p.1, p.2.map pyStr))).map Prod.fst =
      specs.map Prod.fst := by
    rw [List.map_map]; rfl
  have hdistc : distinctStrings
      ((specs.map (fun p => (p.1, p.2.map pyStr))).map Prod.fst) = true := by
    rw [hnames]; exact hdist
  have hnonempty : ∀ sv ∈ specs.map (fun p => (p.1, p.2.map pyStr)), sv.2 ≠ [] := by
    intro sv hsv
    rw [List.mem_map] at hsv
    obtain ⟨p, hp, he⟩ := hsv
    rw [List.all_eq_true] at hne
    have := hne p hp
    rw [← he]
    simp only
    intro hnil
    rw [List.map_eq_nil_iff] at hnil
    rw [hnil] at this
    simp at this
  have hguard : (specs.map (fun p => (p.1, p.2.map pyStr))).any
      (fun sv => sv.2.isEmpty) = false := by
    rw [List.any_eq_false]
    intro sv hsv
    have := hnonempty sv hsv
    cases hl : sv.2 with
    | nil => exact absurd hl this
    | cons a t => simp [hl, List.isEmpty]
  have hvalid : ixValid (specs.map (fun p => (p.1, p.2.map pyStr)))
      (zerosFor (specs.map (fun p => (p.1, p.2.map pyStr)))) :=
    ixValid_zeros _ hnonempty
  have hsnd : (specs.map (fun p => (p.1, p.2.map pyStr))).map Prod.snd =
      specs.map (fun p => p.2.map pyStr) := by
    rw [List.map_map]; rfl
  have hcombos0 := combosFrom_zeros _ hnonempty
  have hlenprod : ((specs.map (fun p => (p.1, p.2.map pyStr))).map
      (fun sv => sv.2.length)).prod = (specs.map (fun p => p.2.length)).prod := by
    rw [List.map_map]
    congr 1
    apply List.map_congr_left
    intro p _
    simp [Function.comp, List.length_map]
  have hlen2 : (specCombos (specs.map (fun p => p.2.map pyStr))).length =
      (specs.map (fun p => p.2.length)).prod := by
    rw [specCombos_length, List.map_map]
    congr 1
    apply List.map_congr_left
    intro p _
    simp [Function.comp, List.length_map]
  refine ⟨?_, hlen2⟩
  have hfuel : (combosFrom (specs.map (fun p => (p.1, p.2.map pyStr)))
      (zerosFor (specs.map (fun p => (p.1, p.2.map pyStr))))).length ≤
      ((specs.map (fun p => (p.1, p.2.map pyStr))).map (fun sv => sv.2.length)).prod := by
    rw [hcombos0, hsnd, hlen2, hlenprod]
  simp only [forEachCompute, parseSpecs_mk, Except.bind, hguard,
    Bool.false_eq_true, if_neg, not_false_iff]
  have hz : (specs.map (fun p => (p.1, p.2.map pyStr))).map
      (fun _ => (0 : Nat)) = zerosFor (specs.map (fun p => (p.1, p.2.map pyStr))) := rfl
  rw [hz, initCurrent_eq _ hdistc,
    forEachLoop_combos body _ hdistc _ _ hvalid hfuel,
    hcombos0, hsnd, hnames]

theorem forEach_product_odometer_witness :
    forEachCompute (JValue.vseq
        [JValue.vseq
          [JValue.vseq [JValue.vstr "x", JValue.vseq [JValue.vint 1, JValue.vint 2]],
           JValue.vseq [JValue.vstr "y",
             JValue.vseq [JValue.vstr "a", JValue.vstr "b"]]],
         JValue.vstr "${x}-${y}"]) =
      Except.ok [JValue.vstr "1-a", JValue.vstr "1-b",
        JValue.vstr "2-a", JValue.vstr "2-b"] :=
  ((forEach_product_odometer
    [("x", [JValue.vint 1, JValue.vint 2]), ("y", [JValue.vstr "a", JValue.vstr "b"])]
    (JValue.vstr "${x}-${y}") rfl rfl).1).trans rfl
